import Mathlib

/-!
Verification of the ProtoView radio-signal acquisition and message-building
core (direct-sampling view and build-message view), shallowly embedded in
Lean 4. Machine integers (uint32_t) are modelled as natural numbers with
explicit reduction modulo 2^32 where the C arithmetic can overflow; C bytes
(uint8_t) are naturals whose bits at positions 0..7 carry the content; the
null-terminated `Decoders` array is modelled as a Lean list (an index holds
NULL exactly when it is past the end of the list); fallible or potentially
non-terminating code returns `Option`.
-/

/- ===================== Constants (direct_sampling.c) ===================== -/

def CAPTURED_BITMAP_SIZE : Nat := 128 * 64 / 8
def DEFAULT_USEC_PER_PIXEL : Nat := 50
def USEC_PER_PIXEL_SMALL_CHANGE : Nat := 5
def USEC_PER_PIXEL_LARGE_CHANGE : Nat := 25
def USEC_PER_PIXEL_MIN : Nat := 5
def USEC_PER_PIXEL_MAX : Nat := 300

/-- Modulus of the C type `uint32_t`, used for the unsigned arithmetic on
`usec_per_pixel`. -/
def UINT32_LIMIT : Nat := 2 ^ 32

/- ===================== Bit Sample Buffer ===================== -/

/-- Modelled from the spec: the repository's `bitmap_set` (declared in app.h
and called from the direct-sampling view; its definition is not among the
provided sources). Per spec section 4.1 it computes byte offset `index / 8`
and bit offset `index % 8` and writes the boolean `level` into that bit; per
section 3 a write outside the valid range `0 <= index < blen*8` is rejected.
The buffer is a list of byte values; clearing a bit masks with the 8-bit
complement of the bit, setting a bit ors it in. -/
def bitmap_set (b : List Nat) (blen : Nat) (index : Nat) (level : Bool) : List Nat :=
  let byte := index / 8
  let bit := index % 8
  if blen ≤ byte then b
  else
    b.set byte
      (if level then (b.getD byte 0) ||| (1 <<< bit)
       else (b.getD byte 0) &&& (255 ^^^ (1 <<< bit)))

/-- Modelled from the spec: the repository's `bitmap_get` (declared in app.h;
definition not among the provided sources). It computes byte offset
`index / 8` and bit offset `index % 8` and reads that bit; an out-of-range
read yields `false`. -/
def bitmap_get (b : List Nat) (blen : Nat) (index : Nat) : Bool :=
  let byte := index / 8
  let bit := index % 8
  if blen ≤ byte then false
  else (b.getD byte 0).testBit bit

lemma bitmap_set_length (b : List Nat) (blen index : Nat) (level : Bool) :
    (bitmap_set b blen index level).length = b.length := by
  unfold bitmap_set
  by_cases h : blen ≤ index / 8 <;> simp [h, List.length_set]

/- List helper lemmas for getD/set interaction. -/

lemma getD_set_self : ∀ (l : List Nat) (n x : Nat), n < l.length →
    (l.set n x).getD n 0 = x
  | [], n, x, h => absurd h (by simp)
  | a :: t, 0, x, _ => rfl
  | a :: t, n + 1, x, h => by
    have ht : n < t.length := by simpa using h
    simpa [List.set] using getD_set_self t n x ht

lemma getD_set_ne : ∀ (l : List Nat) (n m x : Nat), n ≠ m →
    (l.set n x).getD m 0 = l.getD m 0
  | [], _, _, _, _ => rfl
  | a :: t, 0, 0, x, h => absurd rfl h
  | a :: t, 0, m + 1, x, _ => rfl
  | a :: t, n + 1, 0, x, _ => rfl
  | a :: t, n + 1, m + 1, x, h => by
    have h2 : n ≠ m := fun hc => h (by omega)
    simpa [List.set] using getD_set_ne t n m x h2

/- Bit-level helper lemmas about a single byte. -/

lemma one_shiftLeft_eq (k : Nat) : 1 <<< k = 2 ^ k := by
  rw [Nat.shiftLeft_eq, one_mul]

lemma testBit_or_self (x k : Nat) : (x ||| (1 <<< k)).testBit k = true := by
  rw [one_shiftLeft_eq, Nat.testBit_lor, Nat.testBit_two_pow_self, Bool.or_true]

lemma testBit_or_ne (x k j : Nat) (h : j ≠ k) :
    (x ||| (1 <<< k)).testBit j = x.testBit j := by
  rw [one_shiftLeft_eq, Nat.testBit_lor, Nat.testBit_two_pow_of_ne (fun hc => h hc.symm),
    Bool.or_false]

lemma testBit_255 (j : Nat) (hj : j < 8) : (255 : Nat).testBit j = true := by
  have h : (255 : Nat) = 2 ^ 8 - 1 := by norm_num
  rw [h, Nat.testBit_two_pow_sub_one]
  simpa using hj

lemma testBit_clear_self (x k : Nat) (hk : k < 8) :
    (x &&& (255 ^^^ (1 <<< k))).testBit k = false := by
  rw [one_shiftLeft_eq, Nat.testBit_land, Nat.testBit_xor, testBit_255 k hk,
    Nat.testBit_two_pow_self]
  simp

lemma testBit_clear_ne (x k j : Nat) (h : j ≠ k) (hj : j < 8) :
    (x &&& (255 ^^^ (1 <<< k))).testBit j = x.testBit j := by
  rw [one_shiftLeft_eq, Nat.testBit_land, Nat.testBit_xor, testBit_255 j hj,
    Nat.testBit_two_pow_of_ne (fun hc => h hc.symm)]
  simp

/- Round-trip and frame lemmas for the Bit Sample Buffer. -/

lemma bitmap_get_set_self (b : List Nat) (blen i : Nat) (v : Bool)
    (hlen : b.length = blen) (hi : i < blen * 8) :
    bitmap_get (bitmap_set b blen i v) blen i = v := by
  have hbyte : i / 8 < blen := (Nat.div_lt_iff_lt_mul (by norm_num)).2 hi
  have hbit : i % 8 < 8 := Nat.mod_lt _ (by norm_num)
  have hguard : ¬ blen ≤ i / 8 := by omega
  unfold bitmap_get bitmap_set
  simp only [hguard, if_false]
  rw [getD_set_self _ _ _ (by omega)]
  cases v with
  | true => simp [testBit_or_self]
  | false => simp [testBit_clear_self _ _ hbit]

lemma bitmap_get_set_ne (b : List Nat) (blen i j : Nat) (v : Bool)
    (hlen : b.length = blen) (hi : i < blen * 8) (hj : j < blen * 8) (hne : j ≠ i) :
    bitmap_get (bitmap_set b blen i v) blen j = bitmap_get b blen j := by
  have hbyte : i / 8 < blen := (Nat.div_lt_iff_lt_mul (by norm_num)).2 hi
  have hbytej : j / 8 < blen := (Nat.div_lt_iff_lt_mul (by norm_num)).2 hj
  have hguardi : ¬ blen ≤ i / 8 := by omega
  have hguardj : ¬ blen ≤ j / 8 := by omega
  unfold bitmap_get bitmap_set
  simp only [hguardi, hguardj, if_false]
  rcases Nat.decEq (i / 8) (j / 8) with hb | hb
  · -- different bytes: the written byte is not the byte read
    rw [getD_set_ne _ _ _ _ hb]
  · -- same byte, different bit offsets
    have hbits : j % 8 ≠ i % 8 := by
      intro hc
      apply hne
      have di : 8 * (i / 8) + i % 8 = i := Nat.div_add_mod i 8
      have dj : 8 * (j / 8) + j % 8 = j := Nat.div_add_mod j 8
      omega
    rw [hb, getD_set_self _ _ _ (by omega)]
    have hbitj : j % 8 < 8 := Nat.mod_lt _ (by norm_num)
    cases v with
    | true => simp [testBit_or_ne _ _ _ hbits]
    | false => simp [testBit_clear_ne _ _ _ hbits hbitj]

/-- Claim C1: for every valid bit index `i` (with `0 <= i < blen*8`, `blen`
the buffer's byte capacity) and every boolean `v`, reading bit `i` after
writing `v` to bit `i` of the bit sample buffer returns `v`, and the write
to bit `i` leaves every other valid bit of the buffer unchanged. -/
theorem bitmap_set_get_roundtrip_frame (b : List Nat) (blen i : Nat) (v : Bool)
    (hlen : b.length = blen) (hi : i < blen * 8) :
    bitmap_get (bitmap_set b blen i v) blen i = v ∧
    ∀ j, j < blen * 8 → j ≠ i →
      bitmap_get (bitmap_set b blen i v) blen j = bitmap_get b blen j := by
  refine ⟨bitmap_get_set_self b blen i v hlen hi, ?_⟩
  intro j hj hne
  exact bitmap_get_set_ne b blen i j v hlen hi hj hne

/-- Witness for claim C1 at a concrete buffer: two bytes, bit 3 set to true,
round-trips, and bit 5 is untouched. -/
theorem bitmap_set_get_roundtrip_frame_witness :
    bitmap_get (bitmap_set [0, 0] 2 3 true) 2 3 = true ∧
    bitmap_get (bitmap_set [0, 0] 2 3 true) 2 5 = bitmap_get [0, 0] 2 5 :=
  ⟨(bitmap_set_get_roundtrip_frame [0, 0] 2 3 true (by decide) (by decide)).1,
   (bitmap_set_get_roundtrip_frame [0, 0] 2 3 true (by decide) (by decide)).2
     5 (by decide) (by decide)⟩

/- ===================== Input events ===================== -/

inductive InputKey
  | Up | Down | Right | Left | Ok | Back
deriving DecidableEq

inductive InputType
  | Press | Release | Repeat | Short | Long
deriving DecidableEq

structure InputEvent where
  key : InputKey
  type : InputType
deriving DecidableEq

/- ===================== Direct-sampling view state ===================== -/

/-- Reception state of the transceiver, as tested by the direct-sampling
view (`app->txrx->txrx_state`). Only the `Rx` case is distinguished by the
code under analysis. -/
inductive TxRxState
  | Rx | Tx | IDLE
deriving DecidableEq

/-- Calls into the host environment performed by the view enter/exit code,
recorded as an explicit trace. -/
inductive HalOp
  | stop_async_rx
  | subghz_rx
  | gpio_init_polling
  | raw_worker_stop
  | start_async_rx
  | raw_worker_start
  | free_captured
deriving DecidableEq

/-- State touched by the direct-sampling view: its private data
(`captured` bitmap, `usec_per_pixel`), the app-level mode flag, the
transceiver state it reads, and booleans tracking which reception mechanism
of the host environment is currently running on the radio line. -/
structure DSState where
  captured : Option (List Nat)
  usec_per_pixel : Nat
  direct_sampling_enabled : Bool
  txrx_state : TxRxState
  debug_timer_sampling : Bool
  async_rx_running : Bool
  raw_worker_running : Bool
  gpio_polling : Bool
deriving DecidableEq

/-- Input handler of the direct-sampling view (`process_input_direct_sampling`).
An OK press toggles capturing; an up/down press or repeat adjusts
`usec_per_pixel` by the small (press) or large (repeat) step — downwards for
up — with `uint32_t` arithmetic (addition of the two's complement of the
step, modulo 2^32) followed by clamping into `[MIN, MAX]`. -/
def process_input_direct_sampling (s : DSState) (input : InputEvent) : DSState :=
  let s1 := if input.type = InputType.Press ∧ input.key = InputKey.Ok then
      { s with direct_sampling_enabled := !s.direct_sampling_enabled }
    else s
  if (input.key = InputKey.Up ∨ input.key = InputKey.Down) ∧
     (input.type = InputType.Press ∨ input.type = InputType.Repeat) then
    let change : Nat := if input.type = InputType.Press then USEC_PER_PIXEL_SMALL_CHANGE
      else USEC_PER_PIXEL_LARGE_CHANGE
    let change : Nat := if input.key = InputKey.Up then (UINT32_LIMIT - change) % UINT32_LIMIT
      else change
    let u := (s1.usec_per_pixel + change) % UINT32_LIMIT
    let u := if u < USEC_PER_PIXEL_MIN then USEC_PER_PIXEL_MIN
      else if USEC_PER_PIXEL_MAX < u then USEC_PER_PIXEL_MAX
      else u
    { s1 with usec_per_pixel := u }
  else s1

/-- Enter handler (`view_enter_direct_sampling`): resets `usec_per_pixel` to
the default; if the app was in asynchronous RX with the debug timer sampling
off, stops the async RX and reconfigures the chip and the G0 line for direct
polling; otherwise stops the raw sampling worker. Returns the new state and
the trace of host calls. -/
def view_enter_direct_sampling (s : DSState) : DSState × List HalOp :=
  let s1 := { s with usec_per_pixel := DEFAULT_USEC_PER_PIXEL }
  if s1.txrx_state = TxRxState.Rx ∧ s1.debug_timer_sampling = false then
    ({ s1 with async_rx_running := false, gpio_polling := true },
     [HalOp.stop_async_rx, HalOp.subghz_rx, HalOp.gpio_init_polling])
  else
    ({ s1 with raw_worker_running := false }, [HalOp.raw_worker_stop])

/-- Exit handler (`view_exit_direct_sampling`): frees the captured bitmap if
present (the private data itself is discarded on view switch, so the model
drops the buffer), clears the mode flag, then restarts async RX under the
same condition the enter handler used to stop it, and otherwise restarts the
raw sampling worker. Modelled from the spec: starting async RX hands the
radio line back to the asynchronous path, leaving the polling configuration. -/
def view_exit_direct_sampling (s : DSState) : DSState × List HalOp :=
  let ops0 := if s.captured.isSome then [HalOp.free_captured] else []
  let s1 := { s with captured := none, direct_sampling_enabled := false }
  if s1.txrx_state = TxRxState.Rx ∧ s1.debug_timer_sampling = false then
    ({ s1 with async_rx_running := true, gpio_polling := false },
     ops0 ++ [HalOp.start_async_rx])
  else
    ({ s1 with raw_worker_running := true }, ops0 ++ [HalOp.raw_worker_start])

/-- Value-level restatement of the `usec_per_pixel` update performed by
`process_input_direct_sampling`, used to reason about the counter without
carrying the whole view state. -/
def adjust_usec (u : Nat) (k : InputKey) (t : InputType) : Nat :=
  if (k = InputKey.Up ∨ k = InputKey.Down) ∧ (t = InputType.Press ∨ t = InputType.Repeat) then
    let change : Nat := if t = InputType.Press then USEC_PER_PIXEL_SMALL_CHANGE
      else USEC_PER_PIXEL_LARGE_CHANGE
    let change : Nat := if k = InputKey.Up then (UINT32_LIMIT - change) % UINT32_LIMIT
      else change
    let u2 := (u + change) % UINT32_LIMIT
    if u2 < USEC_PER_PIXEL_MIN then USEC_PER_PIXEL_MIN
    else if USEC_PER_PIXEL_MAX < u2 then USEC_PER_PIXEL_MAX
    else u2
  else u

lemma process_input_usec_eq (s : DSState) (e : InputEvent) :
    (process_input_direct_sampling s e).usec_per_pixel =
      adjust_usec s.usec_per_pixel e.key e.type := by
  obtain ⟨k, t⟩ := e
  cases k <;> cases t <;>
    simp [process_input_direct_sampling, adjust_usec]

lemma adjust_usec_bounds (u : Nat) (k : InputKey) (t : InputType)
    (h1 : USEC_PER_PIXEL_MIN ≤ u) (h2 : u ≤ USEC_PER_PIXEL_MAX) :
    USEC_PER_PIXEL_MIN ≤ adjust_usec u k t ∧ adjust_usec u k t ≤ USEC_PER_PIXEL_MAX := by
  unfold adjust_usec
  simp only [USEC_PER_PIXEL_MIN, USEC_PER_PIXEL_MAX, USEC_PER_PIXEL_SMALL_CHANGE,
    USEC_PER_PIXEL_LARGE_CHANGE, UINT32_LIMIT] at *
  split_ifs <;> omega

lemma process_input_usec_bounds (s : DSState) (e : InputEvent)
    (h1 : USEC_PER_PIXEL_MIN ≤ s.usec_per_pixel)
    (h2 : s.usec_per_pixel ≤ USEC_PER_PIXEL_MAX) :
    USEC_PER_PIXEL_MIN ≤ (process_input_direct_sampling s e).usec_per_pixel ∧
    (process_input_direct_sampling s e).usec_per_pixel ≤ USEC_PER_PIXEL_MAX := by
  rw [process_input_usec_eq]
  exact adjust_usec_bounds s.usec_per_pixel e.key e.type h1 h2

lemma foldl_process_input_usec_bounds (evs : List InputEvent) :
    ∀ s : DSState, USEC_PER_PIXEL_MIN ≤ s.usec_per_pixel →
      s.usec_per_pixel ≤ USEC_PER_PIXEL_MAX →
      USEC_PER_PIXEL_MIN ≤ (evs.foldl process_input_direct_sampling s).usec_per_pixel ∧
      (evs.foldl process_input_direct_sampling s).usec_per_pixel ≤ USEC_PER_PIXEL_MAX := by
  induction evs with
  | nil => intro s h1 h2; exact ⟨h1, h2⟩
  | cons e t ih =>
    intro s h1 h2
    have h := process_input_usec_bounds s e h1 h2
    simpa using ih (process_input_direct_sampling s e) h.1 h.2

/-- Claim C2: starting from the default value 50 set on view entry, after
every sequence of up/down input events (of type press or repeat) processed
by `process_input_direct_sampling`, the value of `usec_per_pixel` lies
within `[5, 300]`. -/
theorem usec_per_pixel_bounded (s0 : DSState) (evs : List InputEvent)
    (hevs : ∀ e ∈ evs, (e.key = InputKey.Up ∨ e.key = InputKey.Down) ∧
      (e.type = InputType.Press ∨ e.type = InputType.Repeat)) :
    USEC_PER_PIXEL_MIN ≤
      (evs.foldl process_input_direct_sampling
        (view_enter_direct_sampling s0).1).usec_per_pixel ∧
    (evs.foldl process_input_direct_sampling
        (view_enter_direct_sampling s0).1).usec_per_pixel ≤ USEC_PER_PIXEL_MAX := by
  have h50 : (view_enter_direct_sampling s0).1.usec_per_pixel = DEFAULT_USEC_PER_PIXEL := by
    simp only [view_enter_direct_sampling]
    split <;> rfl
  apply foldl_process_input_usec_bounds evs (view_enter_direct_sampling s0).1 <;>
    rw [h50] <;> decide

/-- Witness for claim C2: a concrete entry state and a concrete sequence of
up/down adjustments; the resulting pacing value lies within the bounds. -/
theorem usec_per_pixel_bounded_witness :
    USEC_PER_PIXEL_MIN ≤
      ([⟨InputKey.Up, InputType.Repeat⟩, ⟨InputKey.Up, InputType.Repeat⟩,
        ⟨InputKey.Down, InputType.Press⟩].foldl process_input_direct_sampling
        (view_enter_direct_sampling
          ⟨none, 0, false, TxRxState.Rx, false, true, false, false⟩).1).usec_per_pixel ∧
    ([⟨InputKey.Up, InputType.Repeat⟩, ⟨InputKey.Up, InputType.Repeat⟩,
        ⟨InputKey.Down, InputType.Press⟩].foldl process_input_direct_sampling
        (view_enter_direct_sampling
          ⟨none, 0, false, TxRxState.Rx, false, true, false, false⟩).1).usec_per_pixel ≤
      USEC_PER_PIXEL_MAX :=
  usec_per_pixel_bounded ⟨none, 0, false, TxRxState.Rx, false, true, false, false⟩
    _ (by decide)

/-- Claim C3 (evaluation at the failing input): at the reachable pacing value
20 (six small decrements from the default 50), a repeated up press — a
decrement by the large step 25 — underflows the `uint32_t` counter to
2^32 - 5, which the clamp then maps to the MAXIMUM bound 300. The claim
says the adjustment changes the value by exactly the step or clamps at the
approached (minimum) boundary, i.e. the result should be 5, but the code
yields 300. -/
theorem usec_per_pixel_underflow_eval :
    (process_input_direct_sampling
      ⟨none, 20, true, TxRxState.Rx, false, false, false, true⟩
      ⟨InputKey.Up, InputType.Repeat⟩).usec_per_pixel = 300 := by
  decide

/- ===================== Timed sampling pass and rendering ===================== -/

/-- Modelled from the spec: the freshly allocated capture buffer. The host
allocator hands back zeroed memory, so re-entry into sampling mode starts
from an all-zero bitmap (spec: re-entry allocates fresh zeroed state). -/
def fresh_captured : List Nat := List.replicate CAPTURED_BITMAP_SIZE 0

/-- The timed sampling loop of `render_view_direct_sampling`: for each of the
`CAPTURED_BITMAP_SIZE * 8` ticks `j` it reads the instantaneous line level
(`levels j`, the value `furi_hal_gpio_read` returns on tick `j`) and stores
it at bit index `j` of the capture buffer. The cycle-counting busy-wait
between ticks has no effect on the captured data and is not modelled. -/
def sampling_pass (levels : Nat → Bool) (buf : List Nat) : List Nat :=
  (List.range (CAPTURED_BITMAP_SIZE * 8)).foldl
    (fun b j => bitmap_set b CAPTURED_BITMAP_SIZE j (levels j)) buf

/-- State effect of `render_view_direct_sampling`: with sampling disabled and
no buffer it only draws help text; otherwise it allocates the buffer on
first use and, when sampling is enabled, runs one full sampling pass. The
canvas drawing it performs afterwards does not touch this state. -/
def render_view_direct_sampling (levels : Nat → Bool) (s : DSState) : DSState :=
  if s.direct_sampling_enabled = false ∧ s.captured = none then s
  else
    let buf0 := s.captured.getD fresh_captured
    let buf1 := if s.direct_sampling_enabled then sampling_pass levels buf0 else buf0
    { s with captured := some buf1 }

lemma foldl_bitmap_set_length (blen : Nat) (f : Nat → Bool) :
    ∀ (l : List Nat) (buf : List Nat),
      (l.foldl (fun b j => bitmap_set b blen j (f j)) buf).length = buf.length
  | [], _ => rfl
  | j :: t, buf => by
    simpa [bitmap_set_length] using
      foldl_bitmap_set_length blen f t (bitmap_set buf blen j (f j))

lemma foldl_range_bitmap_get (blen : Nat) (f : Nat → Bool) :
    ∀ (m : Nat) (buf : List Nat), buf.length = blen → m ≤ blen * 8 →
      ∀ i, i < m →
        bitmap_get ((List.range m).foldl
          (fun b j => bitmap_set b blen j (f j)) buf) blen i = f i := by
  intro m
  induction m with
  | zero => intro buf _ _ i hi; omega
  | succ m ih =>
    intro buf hbuf hm i hi
    rw [List.range_succ, List.foldl_append]
    have hlenA : ((List.range m).foldl
        (fun b j => bitmap_set b blen j (f j)) buf).length = blen := by
      rw [foldl_bitmap_set_length]; exact hbuf
    rcases Nat.decEq i m with hne | heq
    · have hilt : i < m := by omega
      simp only [List.foldl_cons, List.foldl_nil]
      rw [bitmap_get_set_ne _ blen m i (f m) hlenA (by omega) (by omega) hne]
      exact ih buf hbuf (by omega) i hilt
    · subst heq
      simp only [List.foldl_cons, List.foldl_nil]
      exact bitmap_get_set_self _ blen i (f i) hlenA (by omega)

/-- Claim C8: when direct sampling is enabled, one rendering pass runs the
timed loop for exactly `TotalBits = CAPTURED_BITMAP_SIZE * 8 = 8192` ticks
(1024 bytes for the 128x64 raster), and each tick stores the sampled level
into the next bit index, so after the pass every bit index in `[0, 8192)`
of the capture buffer holds the level sampled at its tick. -/
theorem render_pass_populates_buffer (levels : Nat → Bool) (s : DSState)
    (hen : s.direct_sampling_enabled = true)
    (hlen : ∀ b, s.captured = some b → b.length = CAPTURED_BITMAP_SIZE) :
    CAPTURED_BITMAP_SIZE * 8 = 8192 ∧
    (List.range (CAPTURED_BITMAP_SIZE * 8)).length = 8192 ∧
    ∃ buf, (render_view_direct_sampling levels s).captured = some buf ∧
      ∀ i, i < 8192 → bitmap_get buf CAPTURED_BITMAP_SIZE i = levels i := by
  have hsz : CAPTURED_BITMAP_SIZE * 8 = 8192 := by decide
  refine ⟨hsz, by simp [hsz], ?_⟩
  have hbuf0 : (s.captured.getD fresh_captured).length = CAPTURED_BITMAP_SIZE := by
    cases hc : s.captured with
    | none => simp [fresh_captured]
    | some b => simpa using hlen b hc
  refine ⟨sampling_pass levels (s.captured.getD fresh_captured), ?_, ?_⟩
  · unfold render_view_direct_sampling
    rw [if_neg (by simp [hen])]
    simp [hen]
  · intro i hi
    unfold sampling_pass
    exact foldl_range_bitmap_get CAPTURED_BITMAP_SIZE levels
      (CAPTURED_BITMAP_SIZE * 8) _ hbuf0 (le_refl _) i (by omega)

/-- Witness for claim C8: starting from a state with no buffer and sampling
enabled, the rendered state holds a fully populated buffer; bit 0 holds the
sampled level. -/
theorem render_pass_populates_buffer_witness :
    ∃ buf, (render_view_direct_sampling (fun _ => true)
        ⟨none, 50, true, TxRxState.Rx, false, false, false, true⟩).captured = some buf ∧
      bitmap_get buf CAPTURED_BITMAP_SIZE 0 = true := by
  obtain ⟨-, -, buf, hbuf, hall⟩ :=
    render_pass_populates_buffer (fun _ => true)
      ⟨none, 50, true, TxRxState.Rx, false, false, false, true⟩
      rfl (fun b hb => by cases hb)
  exact ⟨buf, hbuf, hall 0 (by decide)⟩

lemma getD_replicate_zero : ∀ (n i : Nat), (List.replicate n (0 : Nat)).getD i 0 = 0
  | 0, _ => rfl
  | n + 1, 0 => rfl
  | n + 1, i + 1 => by
    simpa [List.replicate] using getD_replicate_zero n i

/-- Claim C9: exiting the direct-sampling view frees the capture buffer (and
clears the sampling flag), and the buffer a re-entry allocates is fresh
zeroed state: every bit of `fresh_captured` reads 0 before any sampling
pass has written it. -/
theorem exit_frees_and_fresh_is_zeroed (s : DSState) :
    (view_exit_direct_sampling s).1.captured = none ∧
    (view_exit_direct_sampling s).1.direct_sampling_enabled = false ∧
    ∀ i, i < CAPTURED_BITMAP_SIZE * 8 →
      bitmap_get fresh_captured CAPTURED_BITMAP_SIZE i = false := by
  refine ⟨?_, ?_, ?_⟩
  · simp only [view_exit_direct_sampling]
    split <;> rfl
  · simp only [view_exit_direct_sampling]
    split <;> rfl
  · intro i hi
    have hbyte : i / 8 < CAPTURED_BITMAP_SIZE :=
      (Nat.div_lt_iff_lt_mul (by norm_num)).2 hi
    unfold bitmap_get fresh_captured
    rw [if_neg (by omega), getD_replicate_zero]
    exact Nat.zero_testBit _

/-- Witness for claim C9 at a concrete exiting state (buffer present,
sampling enabled): the buffer is gone afterwards and bit 137 of a fresh
buffer reads 0. -/
theorem exit_frees_and_fresh_is_zeroed_witness :
    (view_exit_direct_sampling
      ⟨some fresh_captured, 50, true, TxRxState.Rx, false, false, false, true⟩).1.captured =
        none ∧
    bitmap_get fresh_captured CAPTURED_BITMAP_SIZE 137 = false :=
  ⟨(exit_frees_and_fresh_is_zeroed
      ⟨some fresh_captured, 50, true, TxRxState.Rx, false, false, false, true⟩).1,
   (exit_frees_and_fresh_is_zeroed
      ⟨some fresh_captured, 50, true, TxRxState.Rx, false, false, false, true⟩).2.2
     137 (by decide)⟩

/-- Claim C10: for every prior reception state, exiting the direct-sampling
view restores exactly the reception mode that was active before entry:
asynchronous RX is restarted if and only if entry stopped it (txrx state
was `Rx` and debug timer sampling off), otherwise the raw sampling worker
is restarted; and when the asynchronous path resumes the line is not left
in the polling configuration. The two txrx fields are not modified by any
operation of the view, expressed here by relating the exit-time state `mid`
to the entry-time state `s` through those two fields. -/
theorem exit_restores_reception_mode (s mid : DSState)
    (htx : mid.txrx_state = s.txrx_state)
    (hdbg : mid.debug_timer_sampling = s.debug_timer_sampling) :
    (HalOp.start_async_rx ∈ (view_exit_direct_sampling mid).2 ↔
      HalOp.stop_async_rx ∈ (view_enter_direct_sampling s).2) ∧
    (HalOp.raw_worker_start ∈ (view_exit_direct_sampling mid).2 ↔
      HalOp.raw_worker_stop ∈ (view_enter_direct_sampling s).2) ∧
    ((s.txrx_state = TxRxState.Rx ∧ s.debug_timer_sampling = false) →
      (view_exit_direct_sampling mid).1.async_rx_running = true ∧
      (view_exit_direct_sampling mid).1.gpio_polling = false) ∧
    (¬(s.txrx_state = TxRxState.Rx ∧ s.debug_timer_sampling = false) →
      (view_exit_direct_sampling mid).1.raw_worker_running = true) := by
  by_cases hc : s.txrx_state = TxRxState.Rx ∧ s.debug_timer_sampling = false
  · have hcm : mid.txrx_state = TxRxState.Rx ∧ mid.debug_timer_sampling = false := by
      rw [htx, hdbg]; exact hc
    cases hcap : mid.captured with
    | none =>
      simp [view_exit_direct_sampling, view_enter_direct_sampling, hc, hcm, hc.1, hc.2,
        hcm.1, hcm.2, hcap]
    | some b =>
      simp [view_exit_direct_sampling, view_enter_direct_sampling, hc, hcm, hc.1, hc.2,
        hcm.1, hcm.2, hcap]
  · have hcm : ¬(mid.txrx_state = TxRxState.Rx ∧ mid.debug_timer_sampling = false) := by
      rw [htx, hdbg]; exact hc
    cases hcap : mid.captured with
    | none =>
      simp [view_exit_direct_sampling, view_enter_direct_sampling, hc, hcm, hcap]
    | some b =>
      simp [view_exit_direct_sampling, view_enter_direct_sampling, hc, hcm, hcap]

/-- Witness for claim C10 at a concrete pre-entry state in asynchronous RX:
the exit restarts async RX exactly because entry stopped it, and leaves the
polling configuration. -/
theorem exit_restores_reception_mode_witness :
    (HalOp.start_async_rx ∈ (view_exit_direct_sampling
        ⟨some fresh_captured, 50, true, TxRxState.Rx, false, false, false, true⟩).2 ↔
      HalOp.stop_async_rx ∈ (view_enter_direct_sampling
        ⟨none, 50, false, TxRxState.Rx, false, true, false, false⟩).2) ∧
    (view_exit_direct_sampling
        ⟨some fresh_captured, 50, true, TxRxState.Rx, false, false, false, true⟩).1.gpio_polling =
      false := by
  obtain ⟨h1, -, h3, -⟩ := exit_restores_reception_mode
    ⟨none, 50, false, TxRxState.Rx, false, true, false, false⟩
    ⟨some fresh_captured, 50, true, TxRxState.Rx, false, false, false, true⟩
    rfl rfl
  exact ⟨h1, (h3 ⟨rfl, rfl⟩).2⟩

/- ===================== Decoders, field sets, build-message view ===================== -/

inductive ProtoViewFieldType
  | uint | int | bytes | enumeration
deriving DecidableEq

/-- Modelled from the spec: a field of a protocol message (section 3): a
name, a semantic type, the current value, and bit-width metadata. The
payload of non-integer fields is abstracted into the integer value. -/
structure ProtoViewField where
  name : String
  ftype : ProtoViewFieldType
  value : Int
  bits : Nat
deriving DecidableEq

/-- Modelled from the spec: an ordered field set (section 4.4). -/
structure ProtoViewFieldSet where
  fields : List ProtoViewField
deriving DecidableEq

/-- Modelled from the spec: `fieldset_new` returns an empty field set
(section 4.4, its definition is not among the provided sources). -/
def fieldset_new : ProtoViewFieldSet := ⟨[]⟩

def ProtoViewFieldSet.numfields (fs : ProtoViewFieldSet) : Nat := fs.fields.length

/-- A protocol decoder of the registry (spec section 4.3): a display name
and optional capabilities. `get_fields` populates a field schema (in C it
mutates the passed field set; modelled as a function on field sets);
`decode` interprets a raw signal, modelled as a bit list, into a message
(abstracted to its field set); `encode` serializes a field set into a raw
signal. Only the presence of `get_fields` is inspected by the code under
analysis. -/
structure ProtoViewDecoder where
  name : String
  decode : Option (List Bool → Option ProtoViewFieldSet)
  get_fields : Option (ProtoViewFieldSet → ProtoViewFieldSet)
  encode : Option (ProtoViewFieldSet → List Bool)

/-- Whether the decoder at index `i` of the registry exists and has the
`get_fields` capability (`Decoders[i] != NULL && Decoders[i]->get_fields != NULL`). -/
def decoder_has_fields (ds : List ProtoViewDecoder) (i : Nat) : Bool :=
  match ds.get? i with
  | some d => d.get_fields.isSome
  | none => false

/-- One index advance of `select_next_decoder`: `cur_decoder++`, and when
that lands on the NULL terminator (index `n`) wrap to 0. -/
def select_next_step (n i : Nat) : Nat := if i + 1 = n then 0 else i + 1

/-- One index retreat of `select_prev_decoder`: at 0 first seek the NULL
terminator (index `n`) and then decrement, otherwise decrement. -/
def select_prev_step (n i : Nat) : Nat := if i = 0 then n - 1 else i - 1

/-- The do-while search loop shared by `select_next_decoder` and
`select_prev_decoder`: advance the index, stop as soon as the decoder
there has the `get_fields` capability. The C loop is unbounded; the model
uses explicit fuel and returns `none` when the fuel runs out (the C loop
would spin forever in that situation). -/
def select_loop (ds : List ProtoViewDecoder) (step : Nat → Nat) : Nat → Nat → Option Nat
  | _, 0 => none
  | i, fuel + 1 =>
    let j := step i
    if decoder_has_fields ds j then some j else select_loop ds step j fuel

def select_next_decoder (ds : List ProtoViewDecoder) (i fuel : Nat) : Option Nat :=
  select_loop ds (select_next_step ds.length) i fuel

def select_prev_decoder (ds : List ProtoViewDecoder) (i fuel : Nat) : Option Nat :=
  select_loop ds (select_prev_step ds.length) i fuel

/-- Iterated application of `select_next_decoder` with the standard fuel
`ds.length`, used to state the K-cycle property. -/
def select_next_iter (ds : List ProtoViewDecoder) : Nat → Nat → Option Nat
  | i, 0 => some i
  | i, m + 1 =>
    match select_next_decoder ds i ds.length with
    | some j => select_next_iter ds j m
    | none => none

/-- Private data of the build-message view. -/
structure BuildViewPrivData where
  decoder : Option ProtoViewDecoder
  cur_decoder : Nat
  fieldset : Option ProtoViewFieldSet
  cur_field : Nat

/-- Input handler while selecting a decoder (`process_input_select_decoder`):
on a short OK press, select the browsed decoder, allocate a fresh field set
and populate it through the decoder's `get_fields`; short down/up browse to
the next/previous capable decoder. `none` models the C code running into a
NULL `get_fields` dereference or an unbounded traversal loop, which valid
registries rule out. -/
def process_input_select_decoder (ds : List ProtoViewDecoder)
    (p : BuildViewPrivData) (input : InputEvent) : Option BuildViewPrivData :=
  if input.type = InputType.Short then
    if input.key = InputKey.Ok then
      match ds.get? p.cur_decoder with
      | none => none
      | some d =>
        match d.get_fields with
        | none => none
        | some f =>
          some { p with decoder := some d, fieldset := some (f fieldset_new) }
    else if input.key = InputKey.Down then
      (select_next_decoder ds p.cur_decoder ds.length).map
        (fun j => { p with cur_decoder := j })
    else if input.key = InputKey.Up then
      (select_prev_decoder ds p.cur_decoder ds.length).map
        (fun j => { p with cur_decoder := j })
    else some p
  else some p

/-- Input handler while editing fields (`process_input_set_fields`): the C
function body is a stub, `UNUSED(app); UNUSED(input);`, so the state is
returned unchanged for every input. -/
def process_input_set_fields (p : BuildViewPrivData) (input : InputEvent) :
    BuildViewPrivData := p

/-- Dispatcher of the build-message view (`process_input_build_message`):
with a decoder selected the session is in the fields-editing state,
otherwise in the decoder-selection state. -/
def process_input_build_message (ds : List ProtoViewDecoder)
    (p : BuildViewPrivData) (input : InputEvent) : Option BuildViewPrivData :=
  if p.decoder.isSome then some (process_input_set_fields p input)
  else process_input_select_decoder ds p input

/- ===================== Traversal lemmas ===================== -/

lemma decoder_has_fields_lt (ds : List ProtoViewDecoder) (i : Nat)
    (h : decoder_has_fields ds i = true) : i < ds.length := by
  unfold decoder_has_fields at h
  cases hg : ds.get? i with
  | none => rw [hg] at h; simp at h
  | some d => exact (List.get?_eq_some.mp hg).1

lemma select_loop_capable (ds : List ProtoViewDecoder) (step : Nat → Nat) :
    ∀ fuel i j, select_loop ds step i fuel = some j →
      decoder_has_fields ds j = true := by
  intro fuel
  induction fuel with
  | zero => intro i j h; simp [select_loop] at h
  | succ fuel ih =>
    intro i j h
    simp only [select_loop] at h
    by_cases hc : decoder_has_fields ds (step i) = true
    · rw [if_pos hc] at h
      cases h
      exact hc
    · rw [if_neg hc] at h
      exact ih _ _ h

lemma select_next_step_eq_mod (n i : Nat) (hi : i < n) :
    select_next_step n i = (i + 1) % n := by
  unfold select_next_step
  by_cases h : i + 1 = n
  · rw [if_pos h, h, Nat.mod_self]
  · rw [if_neg h, Nat.mod_eq_of_lt (by omega)]

lemma select_prev_step_eq_mod (n i : Nat) (hi : i < n) :
    select_prev_step n i = (i + (n - 1)) % n := by
  unfold select_prev_step
  by_cases h : i = 0
  · subst h
    rw [if_pos rfl, Nat.zero_add, Nat.mod_eq_of_lt (by omega)]
  · rw [if_neg h]
    have h1 : i + (n - 1) = n + (i - 1) := by omega
    rw [h1, Nat.add_mod_left, Nat.mod_eq_of_lt (by omega)]

lemma select_loop_eq_of_min (ds : List ProtoViewDecoder) (step : Nat → Nat) (a : Nat)
    (hstep : ∀ i, i < ds.length → step i = (i + a) % ds.length) :
    ∀ fuel i d, i < ds.length → 1 ≤ d → d ≤ fuel →
      decoder_has_fields ds ((i + a * d) % ds.length) = true →
      (∀ e, 1 ≤ e → e < d →
        decoder_has_fields ds ((i + a * e) % ds.length) = false) →
      select_loop ds step i fuel = some ((i + a * d) % ds.length) := by
  intro fuel
  induction fuel with
  | zero => intro i d hi hd1 hdf _ _; omega
  | succ fuel ih =>
    intro i d hi hd1 hdf hcap hmin
    have hn : 0 < ds.length := by omega
    simp only [select_loop]
    rw [hstep i hi]
    by_cases hc : decoder_has_fields ds ((i + a) % ds.length) = true
    · rw [if_pos hc]
      have hd : d = 1 := by
        by_contra hne
        have hmin1 := hmin 1 (by omega) (by omega)
        rw [Nat.mul_one] at hmin1
        rw [hmin1] at hc
        exact Bool.noConfusion hc
      subst hd
      rw [Nat.mul_one]
    · rw [if_neg hc]
      have hd2 : 2 ≤ d := by
        rcases Nat.lt_or_ge d 2 with h | h
        · have hd1e : d = 1 := by omega
          rw [hd1e, Nat.mul_one] at hcap
          exact absurd hcap hc
        · exact h
      have hj : (i + a) % ds.length < ds.length := Nat.mod_lt _ hn
      have harith : ∀ e, ((i + a) % ds.length + a * e) % ds.length =
          (i + a * (e + 1)) % ds.length := by
        intro e
        rw [Nat.mod_add_mod]
        congr 1
        rw [Nat.mul_succ]
        ring
      have hcap2 : decoder_has_fields ds
          (((i + a) % ds.length + a * (d - 1)) % ds.length) = true := by
        rw [harith, (by omega : d - 1 + 1 = d)]
        exact hcap
      have hmin2 : ∀ e, 1 ≤ e → e < d - 1 →
          decoder_has_fields ds (((i + a) % ds.length + a * e) % ds.length) = false := by
        intro e he1 he2
        rw [harith]
        exact hmin (e + 1) (by omega) (by omega)
      have := ih ((i + a) % ds.length) (d - 1) hj (by omega) (by omega) hcap2 hmin2
      rw [this, harith, (by omega : d - 1 + 1 = d)]

lemma select_next_found (ds : List ProtoViewDecoder) (i c : Nat)
    (hc : decoder_has_fields ds c = true) (hi : i < ds.length) :
    ∃ d, 1 ≤ d ∧ d ≤ ds.length ∧
      decoder_has_fields ds ((i + d) % ds.length) = true := by
  have hcn : c < ds.length := decoder_has_fields_lt ds c hc
  by_cases hci : i < c
  · refine ⟨c - i, by omega, by omega, ?_⟩
    rw [(by omega : i + (c - i) = c), Nat.mod_eq_of_lt hcn]
    exact hc
  · refine ⟨ds.length - (i - c), by omega, by omega, ?_⟩
    rw [(by omega : i + (ds.length - (i - c)) = ds.length + c), Nat.add_mod_left,
      Nat.mod_eq_of_lt hcn]
    exact hc

lemma select_prev_found (ds : List ProtoViewDecoder) (i c : Nat)
    (hc : decoder_has_fields ds c = true) (hi : i < ds.length) :
    ∃ d, 1 ≤ d ∧ d ≤ ds.length ∧
      decoder_has_fields ds ((i + (ds.length - 1) * d) % ds.length) = true := by
  have hcn : c < ds.length := decoder_has_fields_lt ds c hc
  have hn : 0 < ds.length := by omega
  have key : ∀ d : Nat, d + (ds.length - 1) * d = ds.length * d := by
    intro d
    conv_rhs => rw [(by omega : ds.length = (ds.length - 1) + 1)]
    rw [Nat.succ_mul, Nat.add_comm]
  by_cases hci : c < i
  · refine ⟨i - c, by omega, by omega, ?_⟩
    have hS : i + (ds.length - 1) * (i - c) = c + ds.length * (i - c) := by
      have hk := key (i - c)
      omega
    rw [hS, Nat.add_mul_mod_self_left, Nat.mod_eq_of_lt hcn]
    exact hc
  · refine ⟨ds.length - (c - i), by omega, by omega, ?_⟩
    have hS : i + (ds.length - 1) * (ds.length - (c - i)) + ds.length =
        c + ds.length * (ds.length - (c - i)) := by
      have hk := key (ds.length - (c - i))
      omega
    rw [← Nat.add_mod_right (i + (ds.length - 1) * (ds.length - (c - i))) ds.length,
      hS, Nat.add_mul_mod_self_left, Nat.mod_eq_of_lt hcn]
    exact hc

lemma select_next_min_eq (ds : List ProtoViewDecoder) (i : Nat) (hi : i < ds.length)
    (H : ∃ d, 1 ≤ d ∧ decoder_has_fields ds ((i + d) % ds.length) = true)
    (hbound : Nat.find H ≤ ds.length) :
    select_next_decoder ds i ds.length =
      some ((i + Nat.find H) % ds.length) := by
  have hspec := Nat.find_spec H
  unfold select_next_decoder
  have h := select_loop_eq_of_min ds (select_next_step ds.length) 1
    (fun j hj => select_next_step_eq_mod ds.length j hj) ds.length i (Nat.find H)
    hi hspec.1 hbound
    (by rw [one_mul]; exact hspec.2)
    (by
      intro e he1 he2
      rw [one_mul]
      have hne := Nat.find_min H he2
      cases hx : decoder_has_fields ds ((i + e) % ds.length) with
      | false => rfl
      | true => exact absurd ⟨he1, hx⟩ hne)
  rw [one_mul] at h
  exact h

lemma select_prev_min_eq (ds : List ProtoViewDecoder) (i : Nat) (hi : i < ds.length)
    (H : ∃ d, 1 ≤ d ∧
      decoder_has_fields ds ((i + (ds.length - 1) * d) % ds.length) = true)
    (hbound : Nat.find H ≤ ds.length) :
    select_prev_decoder ds i ds.length =
      some ((i + (ds.length - 1) * Nat.find H) % ds.length) := by
  have hspec := Nat.find_spec H
  unfold select_prev_decoder
  exact select_loop_eq_of_min ds (select_prev_step ds.length) (ds.length - 1)
    (fun j hj => select_prev_step_eq_mod ds.length j hj) ds.length i (Nat.find H)
    hi hspec.1 hbound hspec.2
    (by
      intro e he1 he2
      have hne := Nat.find_min H he2
      cases hx : decoder_has_fields ds ((i + (ds.length - 1) * e) % ds.length) with
      | false => rfl
      | true => exact absurd ⟨he1, hx⟩ hne)

/-- Claim C5: under the precondition that the decoder registry is a
non-empty, null-terminated list containing at least one decoder with the
`get_fields` capability, both `select_next_decoder` and
`select_prev_decoder` terminate for every starting index within the
registry: with fuel `ds.length` (one full wrap) the do-while loop finds a
capable decoder instead of running out of fuel. -/
theorem select_traversal_terminates (ds : List ProtoViewDecoder) (i c : Nat)
    (hne : ds ≠ []) (hc : decoder_has_fields ds c = true) (hi : i < ds.length) :
    (select_next_decoder ds i ds.length).isSome = true ∧
    (select_prev_decoder ds i ds.length).isSome = true := by
  constructor
  · obtain ⟨d0, hd01, hd0n, hd0c⟩ := select_next_found ds i c hc hi
    have H : ∃ d, 1 ≤ d ∧ decoder_has_fields ds ((i + d) % ds.length) = true :=
      ⟨d0, hd01, hd0c⟩
    have hbound : Nat.find H ≤ ds.length :=
      le_trans (Nat.find_min' H ⟨hd01, hd0c⟩) hd0n
    rw [select_next_min_eq ds i hi H hbound]
    rfl
  · obtain ⟨d0, hd01, hd0n, hd0c⟩ := select_prev_found ds i c hc hi
    have H : ∃ d, 1 ≤ d ∧
        decoder_has_fields ds ((i + (ds.length - 1) * d) % ds.length) = true :=
      ⟨d0, hd01, hd0c⟩
    have hbound : Nat.find H ≤ ds.length :=
      le_trans (Nat.find_min' H ⟨hd01, hd0c⟩) hd0n
    rw [select_prev_min_eq ds i hi H hbound]
    rfl

/-- A concrete capable decoder shared by the witnesses: it builds a single
8-bit unsigned field. -/
def dec_cap : ProtoViewDecoder :=
  { name := "cap",
    decode := none,
    get_fields := some (fun _ => ⟨[⟨"data", ProtoViewFieldType.uint, 0, 8⟩]⟩),
    encode := none }

/-- A concrete decoder without the build capability, shared by the
witnesses. -/
def dec_plain : ProtoViewDecoder :=
  { name := "plain", decode := none, get_fields := none, encode := none }

/-- A concrete registry shared by the witnesses: capable decoders sit at
indexes 1 and 3. -/
def reg4 : List ProtoViewDecoder := [dec_plain, dec_cap, dec_plain, dec_cap]

/-- Witness for claim C5: on the concrete registry both traversals
terminate from start index 0. -/
theorem select_traversal_terminates_witness :
    (select_next_decoder reg4 0 reg4.length).isSome = true ∧
    (select_prev_decoder reg4 0 reg4.length).isSome = true :=
  select_traversal_terminates reg4 0 1
    (by intro h; simp [reg4] at h) rfl (by simp [reg4])

/- ===================== Capable-index structure of the registry ===================== -/

/-- Indexes of the registry whose decoder has the `get_fields` capability,
in increasing order. -/
def capable_indexes (ds : List ProtoViewDecoder) : List Nat :=
  (List.range ds.length).filter fun k => decoder_has_fields ds k

lemma mem_capable_indexes (ds : List ProtoViewDecoder) (k : Nat) :
    k ∈ capable_indexes ds ↔ decoder_has_fields ds k = true := by
  unfold capable_indexes
  rw [List.mem_filter, List.mem_range]
  exact ⟨fun h => h.2, fun h => ⟨decoder_has_fields_lt ds k h, h⟩⟩

lemma capable_indexes_sorted (ds : List ProtoViewDecoder) :
    List.Sorted (fun x y => x < y) (capable_indexes ds) :=
  List.Pairwise.filter _ (List.pairwise_lt_range ds.length)

lemma capable_indexes_strictMono (ds : List ProtoViewDecoder) :
    StrictMono (capable_indexes ds).get :=
  (capable_indexes_sorted ds).get_strictMono

lemma capable_indexes_index_lt (ds : List ProtoViewDecoder) (j k : Nat)
    (hj : j < (capable_indexes ds).length) (hk : k < (capable_indexes ds).length)
    (h : (capable_indexes ds).get ⟨j, hj⟩ < (capable_indexes ds).get ⟨k, hk⟩) :
    j < k :=
  (capable_indexes_strictMono ds).lt_iff_lt.mp h

/-- The decoder found by `select_next_decoder` starting from a capable index
is the cyclically next capable index: the successor in the sorted list of
capable indexes, wrapping from its last entry to its first. -/
lemma select_next_succ (ds : List ProtoViewDecoder) (j : Nat)
    (hj : j < (capable_indexes ds).length) :
    select_next_decoder ds ((capable_indexes ds).get ⟨j, hj⟩) ds.length =
      some ((capable_indexes ds).get
        ⟨(j + 1) % (capable_indexes ds).length, Nat.mod_lt _ (by omega)⟩) := by
  have hmemA : (capable_indexes ds).get ⟨j, hj⟩ ∈ capable_indexes ds :=
    List.get_mem _ j hj
  have hcapA : decoder_has_fields ds ((capable_indexes ds).get ⟨j, hj⟩) = true :=
    (mem_capable_indexes ds _).1 hmemA
  have haN : (capable_indexes ds).get ⟨j, hj⟩ < ds.length :=
    decoder_has_fields_lt ds _ hcapA
  have hn : 0 < ds.length := by omega
  by_cases hjK : j + 1 < (capable_indexes ds).length
  · -- interior step: the next capable index is the next list entry
    have hmemB : (capable_indexes ds).get ⟨j + 1, hjK⟩ ∈ capable_indexes ds :=
      List.get_mem _ (j + 1) hjK
    have hcapB : decoder_has_fields ds ((capable_indexes ds).get ⟨j + 1, hjK⟩) = true :=
      (mem_capable_indexes ds _).1 hmemB
    have hbN : (capable_indexes ds).get ⟨j + 1, hjK⟩ < ds.length :=
      decoder_has_fields_lt ds _ hcapB
    have hab : (capable_indexes ds).get ⟨j, hj⟩ <
        (capable_indexes ds).get ⟨j + 1, hjK⟩ :=
      (capable_indexes_strictMono ds) (show (⟨j, hj⟩ : Fin _) < ⟨j + 1, hjK⟩ from
        by simp [Fin.lt_def])
    have hfin : (⟨(j + 1) % (capable_indexes ds).length,
        Nat.mod_lt _ (by omega)⟩ : Fin (capable_indexes ds).length) = ⟨j + 1, hjK⟩ :=
      Fin.ext (Nat.mod_eq_of_lt hjK)
    rw [hfin]
    have hposb : ((capable_indexes ds).get ⟨j, hj⟩ +
        1 * ((capable_indexes ds).get ⟨j + 1, hjK⟩ -
          (capable_indexes ds).get ⟨j, hj⟩)) % ds.length =
        (capable_indexes ds).get ⟨j + 1, hjK⟩ := by
      rw [one_mul, (by omega : (capable_indexes ds).get ⟨j, hj⟩ +
        ((capable_indexes ds).get ⟨j + 1, hjK⟩ - (capable_indexes ds).get ⟨j, hj⟩) =
        (capable_indexes ds).get ⟨j + 1, hjK⟩)]
      exact Nat.mod_eq_of_lt hbN
    have hres := select_loop_eq_of_min ds (select_next_step ds.length) 1
      (fun x hx => select_next_step_eq_mod ds.length x hx) ds.length
      ((capable_indexes ds).get ⟨j, hj⟩)
      ((capable_indexes ds).get ⟨j + 1, hjK⟩ - (capable_indexes ds).get ⟨j, hj⟩)
      haN (by omega) (by omega)
      (by rw [hposb]; exact hcapB)
      (by
        intro e he1 he2
        rw [one_mul, Nat.mod_eq_of_lt
          (by omega : (capable_indexes ds).get ⟨j, hj⟩ + e < ds.length)]
        cases hx : decoder_has_fields ds ((capable_indexes ds).get ⟨j, hj⟩ + e) with
        | false => rfl
        | true =>
          exfalso
          have hmem : (capable_indexes ds).get ⟨j, hj⟩ + e ∈ capable_indexes ds :=
            (mem_capable_indexes ds _).2 hx
          obtain ⟨⟨k, hk⟩, hgetk⟩ := List.mem_iff_get.mp hmem
          have h1 : j < k := capable_indexes_index_lt ds j k hj hk (by omega)
          have h2 : k < j + 1 := capable_indexes_index_lt ds k (j + 1) hk hjK (by omega)
          omega)
    unfold select_next_decoder
    rw [hres, hposb]
  · -- wrap from the last capable index to the first
    have hK0 : 0 < (capable_indexes ds).length := by omega
    have hjtop : j + 1 = (capable_indexes ds).length := by omega
    have hmemB : (capable_indexes ds).get ⟨0, hK0⟩ ∈ capable_indexes ds :=
      List.get_mem _ 0 hK0
    have hcapB : decoder_has_fields ds ((capable_indexes ds).get ⟨0, hK0⟩) = true :=
      (mem_capable_indexes ds _).1 hmemB
    have hbN : (capable_indexes ds).get ⟨0, hK0⟩ < ds.length :=
      decoder_has_fields_lt ds _ hcapB
    have hba : (capable_indexes ds).get ⟨0, hK0⟩ ≤ (capable_indexes ds).get ⟨j, hj⟩ :=
      (capable_indexes_strictMono ds).monotone (show (⟨0, hK0⟩ : Fin _) ≤ ⟨j, hj⟩ from
        by simp [Fin.le_def])
    have hfin : (⟨(j + 1) % (capable_indexes ds).length,
        Nat.mod_lt _ (by omega)⟩ : Fin (capable_indexes ds).length) = ⟨0, hK0⟩ :=
      Fin.ext (show (j + 1) % (capable_indexes ds).length = 0 by
        rw [hjtop]; exact Nat.mod_self _)
    rw [hfin]
    have hposb : ((capable_indexes ds).get ⟨j, hj⟩ +
        1 * (ds.length + (capable_indexes ds).get ⟨0, hK0⟩ -
          (capable_indexes ds).get ⟨j, hj⟩)) % ds.length =
        (capable_indexes ds).get ⟨0, hK0⟩ := by
      rw [one_mul, (by omega : (capable_indexes ds).get ⟨j, hj⟩ +
        (ds.length + (capable_indexes ds).get ⟨0, hK0⟩ -
          (capable_indexes ds).get ⟨j, hj⟩) =
        ds.length + (capable_indexes ds).get ⟨0, hK0⟩), Nat.add_mod_left]
      exact Nat.mod_eq_of_lt hbN
    have hres := select_loop_eq_of_min ds (select_next_step ds.length) 1
      (fun x hx => select_next_step_eq_mod ds.length x hx) ds.length
      ((capable_indexes ds).get ⟨j, hj⟩)
      (ds.length + (capable_indexes ds).get ⟨0, hK0⟩ -
        (capable_indexes ds).get ⟨j, hj⟩)
      haN (by omega) (by omega)
      (by rw [hposb]; exact hcapB)
      (by
        intro e he1 he2
        rw [one_mul]
        by_cases hen : (capable_indexes ds).get ⟨j, hj⟩ + e < ds.length
        · rw [Nat.mod_eq_of_lt hen]
          cases hx : decoder_has_fields ds ((capable_indexes ds).get ⟨j, hj⟩ + e) with
          | false => rfl
          | true =>
            exfalso
            have hmem : (capable_indexes ds).get ⟨j, hj⟩ + e ∈ capable_indexes ds :=
              (mem_capable_indexes ds _).2 hx
            obtain ⟨⟨k, hk⟩, hgetk⟩ := List.mem_iff_get.mp hmem
            have h1 : j < k := capable_indexes_index_lt ds j k hj hk (by omega)
            omega
        · have hsub : ((capable_indexes ds).get ⟨j, hj⟩ + e) % ds.length =
              (capable_indexes ds).get ⟨j, hj⟩ + e - ds.length := by
            rw [Nat.mod_eq_sub_mod (by omega)]
            exact Nat.mod_eq_of_lt (by omega)
          rw [hsub]
          cases hx : decoder_has_fields ds
              ((capable_indexes ds).get ⟨j, hj⟩ + e - ds.length) with
          | false => rfl
          | true =>
            exfalso
            have hmem : (capable_indexes ds).get ⟨j, hj⟩ + e - ds.length ∈
                capable_indexes ds := (mem_capable_indexes ds _).2 hx
            obtain ⟨⟨k, hk⟩, hgetk⟩ := List.mem_iff_get.mp hmem
            have h1 : k < 0 := capable_indexes_index_lt ds k 0 hk hK0 (by omega)
            omega)
    unfold select_next_decoder
    rw [hres, hposb]

/-- Iterating `select_next_decoder` from the capable index at list position
`j` lands, after `m` hops, on the capable index at list position
`(j + m) mod K`. -/
lemma select_next_iter_get (ds : List ProtoViewDecoder) :
    ∀ (m j : Nat) (hj : j < (capable_indexes ds).length),
      select_next_iter ds ((capable_indexes ds).get ⟨j, hj⟩) m =
        some ((capable_indexes ds).get
          ⟨(j + m) % (capable_indexes ds).length, Nat.mod_lt _ (by omega)⟩) := by
  intro m
  induction m with
  | zero =>
    intro j hj
    have hfin : (⟨(j + 0) % (capable_indexes ds).length, Nat.mod_lt _ (by omega)⟩ :
        Fin (capable_indexes ds).length) = ⟨j, hj⟩ :=
      Fin.ext (show (j + 0) % (capable_indexes ds).length = j by
        rw [Nat.add_zero]; exact Nat.mod_eq_of_lt hj)
    rw [hfin]
    rfl
  | succ m ih =>
    intro j hj
    have hKpos : 0 < (capable_indexes ds).length := by omega
    have hstep := select_next_succ ds j hj
    have hrec := ih ((j + 1) % (capable_indexes ds).length) (Nat.mod_lt _ hKpos)
    have hfin : (⟨((j + 1) % (capable_indexes ds).length + m) %
          (capable_indexes ds).length, Nat.mod_lt _ hKpos⟩ :
        Fin (capable_indexes ds).length) =
        ⟨(j + (m + 1)) % (capable_indexes ds).length, Nat.mod_lt _ hKpos⟩ :=
      Fin.ext (show ((j + 1) % (capable_indexes ds).length + m) %
          (capable_indexes ds).length =
          (j + (m + 1)) % (capable_indexes ds).length by
        rw [Nat.mod_add_mod, (by omega : j + 1 + m = j + (m + 1))])
    calc select_next_iter ds ((capable_indexes ds).get ⟨j, hj⟩) (m + 1)
        = select_next_iter ds ((capable_indexes ds).get
            ⟨(j + 1) % (capable_indexes ds).length, Nat.mod_lt _ hKpos⟩) m := by
          show (match select_next_decoder ds
              ((capable_indexes ds).get ⟨j, hj⟩) ds.length with
            | some x => select_next_iter ds x m
            | none => none) = _
          rw [hstep]
      _ = some ((capable_indexes ds).get
            ⟨(j + (m + 1)) % (capable_indexes ds).length, Nat.mod_lt _ hKpos⟩) := by
          rw [hrec, hfin]

/-- Forward traversal from the last registry index wraps: it yields the
first (least) capable index. -/
lemma select_next_wrap (ds : List ProtoViewDecoder) (c : Nat)
    (hc : decoder_has_fields ds c = true) :
    ∃ j, select_next_decoder ds (ds.length - 1) ds.length = some j ∧
      decoder_has_fields ds j = true ∧
      ∀ k, k < j → decoder_has_fields ds k = false := by
  have hcn := decoder_has_fields_lt ds c hc
  have hn : 0 < ds.length := by omega
  have hi : ds.length - 1 < ds.length := by omega
  obtain ⟨d0, hd01, hd0n, hd0c⟩ := select_next_found ds (ds.length - 1) c hc hi
  have H : ∃ d, 1 ≤ d ∧
      decoder_has_fields ds ((ds.length - 1 + d) % ds.length) = true :=
    ⟨d0, hd01, hd0c⟩
  have hbound : Nat.find H ≤ ds.length :=
    le_trans (Nat.find_min' H ⟨hd01, hd0c⟩) hd0n
  have hspec := Nat.find_spec H
  have hpos : ∀ e, 1 ≤ e → e ≤ ds.length →
      (ds.length - 1 + e) % ds.length = e - 1 := by
    intro e he1 he2
    rw [(by omega : ds.length - 1 + e = ds.length + (e - 1)), Nat.add_mod_left]
    exact Nat.mod_eq_of_lt (by omega)
  refine ⟨Nat.find H - 1, ?_, ?_, ?_⟩
  · rw [select_next_min_eq ds (ds.length - 1) hi H hbound,
      hpos _ hspec.1 hbound]
  · rw [← hpos _ hspec.1 hbound]
    exact hspec.2
  · intro k hk
    have hlt : k + 1 < Nat.find H := by omega
    have hmin := Nat.find_min H hlt
    cases hx : decoder_has_fields ds k with
    | false => rfl
    | true =>
      exfalso
      apply hmin
      refine ⟨by omega, ?_⟩
      rw [hpos (k + 1) (by omega) (by omega),
        (by omega : k + 1 - 1 = k)]
      exact hx

/-- Backward traversal from registry index 0 wraps: it yields the last
(greatest) capable index. -/
lemma select_prev_wrap (ds : List ProtoViewDecoder) (c : Nat)
    (hc : decoder_has_fields ds c = true) :
    ∃ j, select_prev_decoder ds 0 ds.length = some j ∧
      decoder_has_fields ds j = true ∧
      ∀ k, j < k → k < ds.length → decoder_has_fields ds k = false := by
  have hcn := decoder_has_fields_lt ds c hc
  have hn : 0 < ds.length := by omega
  obtain ⟨d0, hd01, hd0n, hd0c⟩ := select_prev_found ds 0 c hc hn
  have H : ∃ d, 1 ≤ d ∧
      decoder_has_fields ds ((0 + (ds.length - 1) * d) % ds.length) = true :=
    ⟨d0, hd01, hd0c⟩
  have hbound : Nat.find H ≤ ds.length :=
    le_trans (Nat.find_min' H ⟨hd01, hd0c⟩) hd0n
  have hspec := Nat.find_spec H
  have hpos : ∀ e, 1 ≤ e → e ≤ ds.length →
      (0 + (ds.length - 1) * e) % ds.length = ds.length - e := by
    intro e he1 he2
    have hk : e + (ds.length - 1) * e = ds.length * e := by
      conv_rhs => rw [(by omega : ds.length = (ds.length - 1) + 1)]
      rw [Nat.succ_mul, Nat.add_comm]
    have hk2 : (e - 1) * ds.length + ds.length = e * ds.length := by
      conv_rhs => rw [(by omega : e = (e - 1) + 1)]
      rw [Nat.succ_mul]
    have hcomm : e * ds.length = ds.length * e := Nat.mul_comm e ds.length
    have hsplit : (ds.length - 1) * e = (ds.length - e) + (e - 1) * ds.length := by
      omega
    rw [Nat.zero_add, hsplit, Nat.add_mul_mod_self_right]
    exact Nat.mod_eq_of_lt (by omega)
  refine ⟨ds.length - Nat.find H, ?_, ?_, ?_⟩
  · rw [select_prev_min_eq ds 0 hn H hbound, hpos _ hspec.1 hbound]
  · rw [← hpos _ hspec.1 hbound]
    exact hspec.2
  · intro k hjk hkn
    have he1 : 1 ≤ ds.length - k := by omega
    have helt : ds.length - k < Nat.find H := by omega
    have hmin := Nat.find_min H helt
    cases hx : decoder_has_fields ds k with
    | false => rfl
    | true =>
      exfalso
      apply hmin
      refine ⟨he1, ?_⟩
      rw [hpos (ds.length - k) he1 (by omega),
        (by omega : ds.length - (ds.length - k) = k)]
      exact hx

lemma filter_map_succ_length (l : List Nat) (p : Nat → Bool) :
    ((l.map Nat.succ).filter p).length = (l.filter fun k => p (k + 1)).length := by
  induction l with
  | nil => rfl
  | cons a t ih =>
    simp only [List.map_cons, List.filter_cons]
    have hsucc : Nat.succ a = a + 1 := rfl
    rw [hsucc]
    cases p (a + 1) <;> simp [ih]

/-- The number of capable indexes equals the number of decoders with the
`get_fields` capability. -/
lemma capable_indexes_length_eq (ds : List ProtoViewDecoder) :
    (capable_indexes ds).length =
      (ds.filter fun d => d.get_fields.isSome).length := by
  induction ds with
  | nil => rfl
  | cons d t ih =>
    unfold capable_indexes at ih ⊢
    rw [List.length_cons, List.range_succ_eq_map]
    simp only [List.filter_cons]
    have hhead : decoder_has_fields (d :: t) 0 = d.get_fields.isSome := rfl
    have hmap : ((List.map Nat.succ (List.range t.length)).filter
        fun k => decoder_has_fields (d :: t) k).length =
        ((List.range t.length).filter fun k => decoder_has_fields t k).length := by
      rw [filter_map_succ_length]
      congr 1
    rw [hhead]
    cases hdg : d.get_fields.isSome <;>
      simp only [if_true, if_false, List.length_cons, Bool.false_eq_true,
        Bool.true_eq_false, reduceIte] <;>
      rw [hmap, ih]

/-- Claim C4: for every registry containing at least one decoder with the
`get_fields` capability, and every starting index at a capable decoder:
both traversals only ever stop on capable decoders; `select_next_decoder`
from the last registry index wraps to the first capable decoder;
`select_prev_decoder` from index 0 wraps to the last capable decoder; and
iterating `select_next_decoder` exactly K times, K the number of
capability-bearing decoders, returns to the starting index. -/
theorem decoder_traversal_properties (ds : List ProtoViewDecoder) (i : Nat)
    (hi : decoder_has_fields ds i = true) :
    (∀ s j fuel, select_next_decoder ds s fuel = some j →
       decoder_has_fields ds j = true) ∧
    (∀ s j fuel, select_prev_decoder ds s fuel = some j →
       decoder_has_fields ds j = true) ∧
    (∃ j, select_next_decoder ds (ds.length - 1) ds.length = some j ∧
       decoder_has_fields ds j = true ∧
       ∀ k, k < j → decoder_has_fields ds k = false) ∧
    (∃ j, select_prev_decoder ds 0 ds.length = some j ∧
       decoder_has_fields ds j = true ∧
       ∀ k, j < k → k < ds.length → decoder_has_fields ds k = false) ∧
    select_next_iter ds i (ds.filter fun d => d.get_fields.isSome).length =
      some i := by
  refine ⟨fun s j fuel h => select_loop_capable ds _ fuel s j h,
    fun s j fuel h => select_loop_capable ds _ fuel s j h,
    select_next_wrap ds i hi, select_prev_wrap ds i hi, ?_⟩
  rw [← capable_indexes_length_eq]
  obtain ⟨⟨j, hj⟩, hget⟩ := List.mem_iff_get.mp ((mem_capable_indexes ds i).2 hi)
  rw [← hget, select_next_iter_get ds (capable_indexes ds).length j hj]
  have hfin : (⟨(j + (capable_indexes ds).length) % (capable_indexes ds).length,
      Nat.mod_lt _ (by omega)⟩ : Fin (capable_indexes ds).length) = ⟨j, hj⟩ :=
    Fin.ext (show (j + (capable_indexes ds).length) % (capable_indexes ds).length = j by
      rw [Nat.add_mod_right]
      exact Nat.mod_eq_of_lt hj)
  rw [hfin]

/-- Witness for claim C4 on the concrete registry (capable decoders at
indexes 1 and 3, so K = 2): starting at the capable index 1, two
applications of the next-capable traversal return to index 1. -/
theorem decoder_traversal_properties_witness :
    decoder_has_fields reg4 1 = true ∧
    select_next_iter reg4 1 ((reg4.filter fun d => d.get_fields.isSome).length) =
      some 1 :=
  ⟨rfl, (decoder_traversal_properties reg4 1 rfl).2.2.2.2⟩

/- ===================== Build-message state machine claims ===================== -/

/-- Claim C6 (evaluation at the failing inputs): in the EditingFields state
(a decoder is selected and a field set allocated) the input handler is a
stub: up/down do not move `cur_field`, confirm does not open the value
editor, and a sustained confirm does not encode; every input leaves the
state exactly unchanged, contradicting the claimed navigation, editing and
commit behaviour (which the view itself advertises on screen). -/
theorem set_fields_input_ignored_eval :
    process_input_build_message reg4
        ⟨some dec_cap, 1, some fieldset_new, 0⟩ ⟨InputKey.Down, InputType.Short⟩ =
      some ⟨some dec_cap, 1, some fieldset_new, 0⟩ ∧
    process_input_build_message reg4
        ⟨some dec_cap, 1, some fieldset_new, 0⟩ ⟨InputKey.Up, InputType.Short⟩ =
      some ⟨some dec_cap, 1, some fieldset_new, 0⟩ ∧
    process_input_build_message reg4
        ⟨some dec_cap, 1, some fieldset_new, 0⟩ ⟨InputKey.Ok, InputType.Short⟩ =
      some ⟨some dec_cap, 1, some fieldset_new, 0⟩ ∧
    process_input_build_message reg4
        ⟨some dec_cap, 1, some fieldset_new, 0⟩ ⟨InputKey.Ok, InputType.Long⟩ =
      some ⟨some dec_cap, 1, some fieldset_new, 0⟩ :=
  ⟨rfl, rfl, rfl, rfl⟩

/-- Claim C7: in the SelectingDecoder state (no decoder selected), a short
OK press selects the currently browsed decoder, allocates a new field set
populated by that decoder's `get_fields`, and moves the session to the
EditingFields state (a selected decoder is now present, so the dispatcher
routes further input to the fields editor). -/
theorem select_decoder_confirm (ds : List ProtoViewDecoder) (p : BuildViewPrivData)
    (d : ProtoViewDecoder) (f : ProtoViewFieldSet → ProtoViewFieldSet)
    (hsel : p.decoder = none) (hd : ds.get? p.cur_decoder = some d)
    (hf : d.get_fields = some f) :
    process_input_build_message ds p ⟨InputKey.Ok, InputType.Short⟩ =
      some { p with decoder := some d, fieldset := some (f fieldset_new) } ∧
    ({ p with decoder := some d, fieldset := some (f fieldset_new) } :
      BuildViewPrivData).decoder.isSome = true := by
  refine ⟨?_, rfl⟩
  unfold process_input_build_message
  rw [hsel]
  rw [if_neg (by simp)]
  have hred : process_input_select_decoder ds p ⟨InputKey.Ok, InputType.Short⟩ =
      match ds.get? p.cur_decoder with
      | none => none
      | some d =>
        match d.get_fields with
        | none => none
        | some f =>
          some { p with decoder := some d, fieldset := some (f fieldset_new) } := rfl
  rw [hred, hd]
  show (match d.get_fields with
      | none => (none : Option BuildViewPrivData)
      | some f =>
        some { p with decoder := some d, fieldset := some (f fieldset_new) }) =
    some { p with decoder := some d, fieldset := some (f fieldset_new) }
  rw [hf]

/-- Witness for claim C7: on the concrete registry, browsing index 1 (the
capable decoder) and pressing short OK selects it and allocates its field
set. -/
theorem select_decoder_confirm_witness :
    process_input_build_message reg4 ⟨none, 1, none, 0⟩
        ⟨InputKey.Ok, InputType.Short⟩ =
      some ⟨some dec_cap, 1,
        some ⟨[⟨"data", ProtoViewFieldType.uint, 0, 8⟩]⟩, 0⟩ :=
  (select_decoder_confirm reg4 ⟨none, 1, none, 0⟩ dec_cap
    (fun _ => ⟨[⟨"data", ProtoViewFieldType.uint, 0, 8⟩]⟩) rfl rfl rfl).1
